import Mathlib

/-!
Verification of the in-memory storage layer and broadcast fan-out of the
collaborative block editor (server/storage.ts, server/routes.ts).

Modelling conventions:
* JS `Map<string, V>` is modelled as an association list `List (String × V)`
  with unique keys in any state the real program can reach; `mapSet` replaces
  in place (preserving insertion order, as a JS Map does) and appends fresh
  keys at the end; `mapDelete` removes the entry with the given key.
  `values` is the list of values in insertion order.
* Wall-clock times (`new Date()`, `getTime()`) are natural numbers passed to
  each operation as an explicit `now` parameter.
* `randomUUID()` is an identifier passed in as an explicit parameter.
* JS `x || d` on an optional string field is `jsOrElse` (the empty string is
  falsy in JS); on an optional array or object field only null/undefined are
  falsy, which `Option.getD` models.
-/

/-- Key lookup in an association list, as JS `Map.prototype.get`. -/
def mapGet (k : String) : List (String × α) → Option α
  | [] => none
  | (k', v) :: rest => if k' = k then some v else mapGet k rest

/-- Key update in an association list, as JS `Map.prototype.set`: replaces the
existing entry in place, or appends a fresh key at the end. -/
def mapSet (k : String) (v : α) : List (String × α) → List (String × α)
  | [] => [(k, v)]
  | (k', v') :: rest => if k' = k then (k, v) :: rest else (k', v') :: mapSet k v rest

/-- Key removal in an association list, as JS `Map.prototype.delete` (on a map
with unique keys, removing every entry with the key equals removing the one). -/
def mapDelete (k : String) (m : List (String × α)) : List (String × α) :=
  m.filter (fun kv => kv.1 ≠ k)

/-- JS `Map.prototype.has`. -/
def mapHas (k : String) (m : List (String × α)) : Bool :=
  (mapGet k m).isSome

/-- JS `Map.prototype.values` (insertion order). -/
def values (m : List (String × α)) : List α :=
  m.map Prod.snd

/-- JS `opt || dflt` for an optional string: the empty string is falsy. -/
def jsOrElse (o : Option String) (dflt : String) : String :=
  match o with
  | none => dflt
  | some s => if s = "" then dflt else s

/-- JS `x || dflt` for an optional nullable object or array field (outer
`Option` = present in the payload, inner `Option` = null): absent, undefined
and null are falsy; any object or array (the empty array included) is
truthy. -/
def jsOrDefault (o : Option (Option α)) (dflt : α) : α :=
  match o with
  | some (some v) => v
  | _ => dflt

/-- JS truthiness of an optional string (`if (comment.parentId)`):
null/undefined and the empty string are falsy. -/
def jsTruthy : Option String → Bool
  | none => false
  | some s => s ≠ ""

/-- A JS number, carried by its IEEE-754 binary64 bit pattern.  The server
only stores and copies position coordinates (it never compares them or does
arithmetic on them), so the bit pattern is a faithful opaque carrier of every
reachable float value; `0` is the pattern of `0.0`. -/
structure JsNum where
  bits : Nat
deriving DecidableEq, Repr

/-- The position object `{ x: number; y: number }` of the `position` jsonb
column of shared/schema.ts (the schema file is reproduced in src/README.md). -/
structure Pos where
  x : JsNum
  y : JsNum
deriving DecidableEq, Repr

/-- The `Block` row type of shared/schema.ts (reproduced in src/README.md):
the `position` and `tags` columns carry no `.notNull()`, so both are
nullable (`none` is SQL/JSON null); the `timestamp` columns are modelled as
epoch milliseconds.  All other columns are non-null. -/
structure Block where
  id : String
  title : String
  content : String
  contentType : String
  position : Option Pos
  tags : Option (List String)
  createdAt : Nat
  updatedAt : Nat
  authorId : String
  authorName : String
deriving DecidableEq, Repr

/-- The `Link` row type of shared/schema.ts (reproduced in src/README.md): a
directed edge between two blocks, all columns non-null. -/
structure Link where
  id : String
  fromBlockId : String
  toBlockId : String
  createdAt : Nat
deriving DecidableEq, Repr

/-- The `Comment` row type of shared/schema.ts (reproduced in src/README.md):
`parentId` carries no `.notNull()`, so it is nullable; the rest is
non-null. -/
structure Comment where
  id : String
  content : String
  blockId : String
  authorId : String
  authorName : String
  parentId : Option String
  createdAt : Nat
deriving DecidableEq, Repr

/-- The payload accepted by `insertBlockSchema` of shared/schema.ts
(reproduced in src/README.md): `createInsertSchema(blocks)` omitting id and
timestamps.  `title`, `authorId`, `authorName` are required; `content` and
`contentType` are optional strings (their columns have defaults);
`position` and `tags` are optional AND nullable (outer `Option` = present in
the payload, inner `Option` = null). -/
structure InsertBlock where
  title : String
  content : Option String
  contentType : Option String
  position : Option (Option Pos)
  tags : Option (Option (List String))
  authorId : String
  authorName : String
deriving DecidableEq, Repr

/-- The payload accepted by `insertLinkSchema` of shared/schema.ts
(reproduced in src/README.md): both endpoint ids, required. -/
structure InsertLink where
  fromBlockId : String
  toBlockId : String
deriving DecidableEq, Repr

/-- The payload accepted by `insertCommentSchema` of shared/schema.ts
(reproduced in src/README.md): `parentId` is optional and nullable (outer
`Option` = present, inner `Option` = null). -/
structure InsertComment where
  content : String
  blockId : String
  authorId : String
  authorName : String
  parentId : Option (Option String)
deriving DecidableEq, Repr

/-- The payload accepted by `insertBlockSchema.partial()` (the PUT
/api/blocks/:id body): every field may be absent; `position` and `tags` may
also be present with value null, which the `updateBlock` spread stores. -/
structure BlockUpd where
  title : Option String
  content : Option String
  contentType : Option String
  position : Option (Option Pos)
  tags : Option (Option (List String))
  authorId : Option String
  authorName : Option String
deriving DecidableEq, Repr

/-- The `CommentWithReplies` type of shared/schema.ts (reproduced in
src/README.md): a comment together with its recursively nested replies, as
returned by `getCommentsForBlock`. -/
inductive CommentWithReplies where
  | node (comment : Comment) (replies : List CommentWithReplies)

/-- The `BlockWithLinks` type of shared/schema.ts (reproduced in
src/README.md), as returned by `getBlockWithLinks`. -/
structure BlockWithLinks where
  block : Block
  linkedTo : List Block
  linkedFrom : List Block
  comments : List Comment
  linkCount : Nat
  commentCount : Nat
deriving DecidableEq, Repr

namespace MemStorage

/-- The state of `MemStorage`: the three JS Maps `blocks`, `links`,
`comments`, each keyed by entity identifier. -/
structure Store where
  blocks : List (String × Block)
  links : List (String × Link)
  comments : List (String × Comment)
deriving DecidableEq, Repr

/-- The empty store built by the `MemStorage` constructor. -/
def empty : Store := ⟨[], [], []⟩

/-- `MemStorage.getBlock`. -/
def getBlock (s : Store) (id : String) : Option Block :=
  mapGet id s.blocks

/-- `MemStorage.createBlock`: assigns the fresh identifier and both
timestamps, applies the JS `||` defaults (`position || { x: 0, y: 0 }` and
`tags || []` replace an absent or null value, so a created block always holds
a non-null position and tag list), inserts, returns the new block. -/
def createBlock (s : Store) (insertBlock : InsertBlock) (newId : String)
    (now : Nat) : Block × Store :=
  let block : Block :=
    { id := newId
      title := insertBlock.title
      content := jsOrElse insertBlock.content ""
      contentType := jsOrElse insertBlock.contentType "text"
      position := some (jsOrDefault insertBlock.position ⟨⟨0⟩, ⟨0⟩⟩)
      tags := some (jsOrDefault insertBlock.tags [])
      createdAt := now
      updatedAt := now
      authorId := insertBlock.authorId
      authorName := insertBlock.authorName }
  (block, { s with blocks := mapSet newId block s.blocks })

/-- The JS spread `{ ...existingBlock, ...updates, updatedAt: now }`: a field
present in `updates` overwrites, an absent field is left untouched; `id` and
`createdAt` are not part of the update payload and are kept. -/
def mergeBlock (b : Block) (u : BlockUpd) (now : Nat) : Block :=
  { id := b.id
    title := u.title.getD b.title
    content := u.content.getD b.content
    contentType := u.contentType.getD b.contentType
    position := u.position.getD b.position
    tags := u.tags.getD b.tags
    createdAt := b.createdAt
    updatedAt := now
    authorId := u.authorId.getD b.authorId
    authorName := u.authorName.getD b.authorName }

/-- `MemStorage.updateBlock`. -/
def updateBlock (s : Store) (id : String) (updates : BlockUpd) (now : Nat) :
    Option Block × Store :=
  match mapGet id s.blocks with
  | none => (none, s)
  | some existingBlock =>
    let updatedBlock := mergeBlock existingBlock updates now
    (some updatedBlock, { s with blocks := mapSet id updatedBlock s.blocks })

/-- `MemStorage.deleteBlock`: removes the block; if one was removed, also
removes every link incident to `id` and every comment owned by `id`; returns
whether a block was actually removed. -/
def deleteBlock (s : Store) (id : String) : Bool × Store :=
  let deleted := mapHas id s.blocks
  let blocks := mapDelete id s.blocks
  if deleted then
    ( true
    , { blocks := blocks
        links := s.links.filter
          (fun kv => ¬ (kv.2.fromBlockId = id ∨ kv.2.toBlockId = id))
        comments := s.comments.filter (fun kv => ¬ (kv.2.blockId = id)) } )
  else (false, { s with blocks := blocks })

/-- `MemStorage.getBlocks`: all blocks sorted by `updatedAt` descending
(the JS comparator is `(a, b) => b.updatedAt - a.updatedAt`); modelled by a
sort producing an arrangement of the table pairwise ordered by that
comparator, which is what `Array.prototype.sort` guarantees. -/
def getBlocks (s : Store) : List Block :=
  List.insertionSort (fun a b => b.updatedAt ≤ a.updatedAt) (values s.blocks)

/-- `MemStorage.getBlockWithLinks`: partitions all links into outgoing and
incoming for `id`, resolves each to its opposite block dropping unresolvable
ones (`.map(get).filter(Boolean)` is `filterMap`), collects the comments on
the block, and reports `linkCount = linkedTo.length + linkedFrom.length`. -/
def getBlockWithLinks (s : Store) (id : String) : Option BlockWithLinks :=
  match mapGet id s.blocks with
  | none => none
  | some block =>
    let allLinks := values s.links
    let outgoingLinks := allLinks.filter (fun l => l.fromBlockId = id)
    let incomingLinks := allLinks.filter (fun l => l.toBlockId = id)
    let linkedTo := outgoingLinks.filterMap (fun l => mapGet l.toBlockId s.blocks)
    let linkedFrom := incomingLinks.filterMap (fun l => mapGet l.fromBlockId s.blocks)
    let comments := (values s.comments).filter (fun c => c.blockId = id)
    some
      { block := block
        linkedTo := linkedTo
        linkedFrom := linkedFrom
        comments := comments
        linkCount := linkedTo.length + linkedFrom.length
        commentCount := comments.length }

/-- `MemStorage.getLinks`. -/
def getLinks (s : Store) : List Link :=
  values s.links

/-- `MemStorage.getLinksForBlock`. -/
def getLinksForBlock (s : Store) (blockId : String) : List Link :=
  (values s.links).filter
    (fun l => l.fromBlockId = blockId ∨ l.toBlockId = blockId)

/-- `MemStorage.createLink`. -/
def createLink (s : Store) (insertLink : InsertLink) (newId : String)
    (now : Nat) : Link × Store :=
  let link : Link :=
    { id := newId
      fromBlockId := insertLink.fromBlockId
      toBlockId := insertLink.toBlockId
      createdAt := now }
  (link, { s with links := mapSet newId link s.links })

/-- `MemStorage.deleteLink`. -/
def deleteLink (s : Store) (id : String) : Bool × Store :=
  (mapHas id s.links, { s with links := mapDelete id s.links })

/-- `MemStorage.getLinksBetween`: all links joining the unordered pair, in
either direction. -/
def getLinksBetween (s : Store) (fromBlockId toBlockId : String) : List Link :=
  (values s.links).filter
    (fun l =>
      (l.fromBlockId = fromBlockId ∧ l.toBlockId = toBlockId) ∨
      (l.fromBlockId = toBlockId ∧ l.toBlockId = fromBlockId))

/-- `MemStorage.createComment`: `insertComment.parentId || null` normalizes a
falsy parent (absent, null or the empty string) to null. -/
def createComment (s : Store) (insertComment : InsertComment) (newId : String)
    (now : Nat) : Comment × Store :=
  let comment : Comment :=
    { id := newId
      content := insertComment.content
      blockId := insertComment.blockId
      authorId := insertComment.authorId
      authorName := insertComment.authorName
      parentId :=
        match insertComment.parentId with
        | some (some p) => if p = "" then none else some p
        | _ => none
      createdAt := now }
  (comment, { s with comments := mapSet newId comment s.comments })

/-- `MemStorage.deleteComment`. -/
def deleteComment (s : Store) (id : String) : Bool × Store :=
  (mapHas id s.comments, { s with comments := mapDelete id s.comments })

/-- The comments attached as replies to `c` by the tree-building pass of
`getCommentsForBlock`: those block comments `d` with a truthy `parentId`
that `commentMap.get` resolves to `c`, i.e. (ids being unique map keys)
`d.parentId = some c.id`, kept in sorted iteration order. -/
def childComments (blockComments : List Comment) (c : Comment) : List Comment :=
  blockComments.filter
    (fun d => jsTruthy d.parentId && decide (d.parentId = some c.id))

/-- The comments pushed onto `rootComments`: those whose `parentId` is falsy,
in sorted iteration order. -/
def rootList (blockComments : List Comment) : List Comment :=
  blockComments.filter (fun c => !jsTruthy c.parentId)

/-- The tree rooted at `c` in the shared mutable node structure built by
`getCommentsForBlock`: after the single attachment pass, the replies list of
the node for `c` holds exactly `childComments blockComments c` in order, and
recursively so below.  The recursion is paid for with fuel; fuel equal to the
number of block comments never truncates, because along any chain reachable
from a root each step's `parentId` equals the previous comment's distinct id,
so chains cannot repeat a comment when ids are unique (as map keys are). -/
def buildTree (blockComments : List Comment) : Nat → Comment → CommentWithReplies
  | 0, c => .node c []
  | fuel + 1, c =>
    .node c ((childComments blockComments c).map (buildTree blockComments fuel))

/-- The comments of the store owned by `blockId`, in table order. -/
def commentsOnBlock (s : Store) (blockId : String) : List Comment :=
  (values s.comments).filter (fun c => c.blockId = blockId)

/-- The block comments sorted by creation time ascending (the JS comparator
is `(a, b) => a.createdAt - b.createdAt`). -/
def sortedComments (l : List Comment) : List Comment :=
  List.insertionSort (fun a b => a.createdAt ≤ b.createdAt) l

/-- `MemStorage.getCommentsForBlock`: filter to the block, sort by creation
time ascending, build the nested reply structure, return the roots. -/
def getCommentsForBlock (s : Store) (blockId : String) : List CommentWithReplies :=
  let blockComments := sortedComments (commentsOnBlock s blockId)
  (rootList blockComments).map (buildTree blockComments blockComments.length)

/-- `MemStorage.getGraphData`. -/
def getGraphData (s : Store) : List Block × List Link :=
  (values s.blocks, values s.links)

end MemStorage

mutual

/-- All comments stored in a reply tree, root first (preorder). -/
def flatTree : CommentWithReplies → List Comment
  | .node c replies => c :: flatForest replies

/-- All comments stored in a list of reply trees. -/
def flatForest : List CommentWithReplies → List Comment
  | [] => []
  | t :: ts => flatTree t ++ flatForest ts

end

/-- Total number of comments in a forest, counting all depths. -/
def sizeForest (ts : List CommentWithReplies) : Nat :=
  (flatForest ts).length

namespace Routes

/-- Outcome of the `POST /api/links` handler on a validated payload:
either the 400 rejection `"Link already exists"` (the conflict signal) or the
created link. -/
inductive CreateLinkResult where
  | conflict
  | created (link : Link)
deriving DecidableEq, Repr

/-- The `POST /api/links` handler after validation: checks
`getLinksBetween(from, to)` and rejects without calling `createLink` if any
result exists, else creates the link. -/
def postLinks (s : MemStorage.Store) (validatedLink : InsertLink)
    (newId : String) (now : Nat) : CreateLinkResult × MemStorage.Store :=
  let existingLinks :=
    MemStorage.getLinksBetween s validatedLink.fromBlockId validatedLink.toBlockId
  if existingLinks.length > 0 then (.conflict, s)
  else
    let res := MemStorage.createLink s validatedLink newId now
    (.created res.1, res.2)

/-- A live WebSocket connection handle as the broadcast loop sees it. -/
structure WsClient where
  clientId : Nat
  readyState : Nat
deriving DecidableEq, Repr

/-- `WebSocket.OPEN`. -/
def wsOPEN : Nat := 1

/-- A broadcast message `{ type, data }`; the payload is abstracted to its
serialized text since no claim depends on its structure. -/
structure WsEvent where
  type : String
  data : String
deriving DecidableEq, Repr

/-- Models `JSON.stringify(message)`; computed once per broadcast and reused
for every connection. -/
def serializeEvent (e : WsEvent) : String :=
  "type:" ++ e.type ++ ";data:" ++ e.data

/-- The `clients.forEach` loop of `broadcastToClients`: a client whose
`readyState` is not `OPEN` is skipped; an `OPEN` client is sent the already
serialized string.  `send` may throw (return `.error`); the loop body has no
guard, so a throw propagates out of `forEach` at once: the result records the
deliveries made before the throw and the escaped exception, and no later
client is visited. -/
def sendAll (send : WsClient → String → Except Unit Unit) (messageStr : String) :
    List WsClient → List (WsClient × String) × Option Unit
  | [] => ([], none)
  | client :: rest =>
    if client.readyState = wsOPEN then
      match send client messageStr with
      | .ok _ =>
        let res := sendAll send messageStr rest
        ((client, messageStr) :: res.1, res.2)
      | .error e => ([], some e)
    else sendAll send messageStr rest

/-- `broadcastToClients(message)`: serialize once, then fan out. -/
def broadcastToClients (send : WsClient → String → Except Unit Unit)
    (clients : List WsClient) (message : WsEvent) :
    List (WsClient × String) × Option Unit :=
  let messageStr := serializeEvent message
  sendAll send messageStr clients

end Routes

/-- The parent reference the tree-building pass acts on: the declared
`parentId` when truthy, otherwise none (the comment is treated as a root). -/
def parentRef (c : Comment) : Option String :=
  if jsTruthy c.parentId then c.parentId else none

/-- Concatenation of the breadth-first levels `l`, `l.flatMap ch`,
`(l.flatMap ch).flatMap ch`, … , `f + 1` levels in all: the comments a
fuel-`f` tree build starting from the pending list `l` can touch. -/
def iterUnion (ch : α → List α) : List α → Nat → List α
  | l, 0 => l
  | l, f + 1 => l ++ iterUnion ch (l.flatMap ch) f

/-- The `f`-th breadth-first level reached from the pending list `l`. -/
def lastLevel (ch : α → List α) : List α → Nat → List α
  | l, 0 => l
  | l, f + 1 => lastLevel ch (l.flatMap ch) f

/-- Number of elements satisfying `pq` among the breadth-first levels `0`
through `f - 1` reached from the pending list `l`. -/
def cqP (ch : α → List α) (pq : α → Bool) : List α → Nat → Nat
  | _, 0 => 0
  | l, f + 1 => l.countP pq + cqP ch pq (l.flatMap ch) f

/-- Stated from the claim, for comparison with the code: the number of links
incident to `B` whose opposite endpoint still resolves to an existing block,
each link counted once. -/
def incidentResolvableLinkCount (s : MemStorage.Store) (B : String) : Nat :=
  ((values s.links).filter
    (fun l =>
      (l.fromBlockId = B ∧ mapHas l.toBlockId s.blocks) ∨
      (l.toBlockId = B ∧ mapHas l.fromBlockId s.blocks))).length

/-- The number of self-links at `B` (source and destination both `B`). -/
def selfLinkOnCount (s : MemStorage.Store) (B : String) : Nat :=
  ((values s.links).filter
    (fun l => l.fromBlockId = B ∧ l.toBlockId = B)).length

/-- The timestamp invariant of the spec: every stored block satisfies
`createdAt <= updatedAt`. -/
def storeTimesOk (s : MemStorage.Store) : Prop :=
  ∀ kv ∈ s.blocks, kv.2.createdAt ≤ kv.2.updatedAt

/-- A block record with the given id and timestamp, for concrete examples. -/
def exBlock (i : String) (t : Nat) : Block :=
  ⟨i, "title", "body", "text", some ⟨⟨0⟩, ⟨0⟩⟩, some [], t, t, "u1", "U"⟩

/-- A link record with the given id and endpoints, for concrete examples. -/
def exLink (i f t : String) : Link :=
  ⟨i, f, t, 0⟩

/-- A comment record with the given id, block, parent and timestamp, for
concrete examples. -/
def exComment (i b : String) (p : Option String) (t : Nat) : Comment :=
  ⟨i, "text", b, "u1", "U", p, t⟩

/-- Two blocks joined both ways, one comment on each: cascade example. -/
def exC1Store : MemStorage.Store :=
  ⟨[("b1", exBlock "b1" 1), ("b2", exBlock "b2" 2)],
   [("l1", exLink "l1" "b1" "b2"), ("l2", exLink "l2" "b2" "b1")],
   [("c1", exComment "c1" "b1" none 1), ("c2", exComment "c2" "b2" none 2)]⟩

/-- Two blocks with one directed link A to B: duplicate-link example. -/
def exC2Store : MemStorage.Store :=
  ⟨[("A", exBlock "A" 1), ("B", exBlock "B" 2)],
   [("l1", exLink "l1" "A" "B")],
   []⟩

/-- The reversed link-creation request B to A. -/
def exC2Req : InsertLink := ⟨"B", "A"⟩

/-- One block with a self-link: link-count example. -/
def exSelfStore : MemStorage.Store :=
  ⟨[("b1", exBlock "b1" 1)], [("ls", exLink "ls" "b1" "b1")], []⟩

/-- Two blocks, one resolvable link, one dangling incoming link and one
dangling outgoing link, no self-links: resolvable-count example. -/
def exC5Store : MemStorage.Store :=
  ⟨[("b1", exBlock "b1" 1), ("b2", exBlock "b2" 2)],
   [("l1", exLink "l1" "b1" "b2"), ("l2", exLink "l2" "b3" "b1"),
    ("l3", exLink "l3" "b1" "bX")],
   []⟩

/-- A store with one block, for the update example. -/
def exC7Store : MemStorage.Store :=
  ⟨[("b1", exBlock "b1" 1)], [], []⟩

/-- A partial update carrying only a title. -/
def exC7Upd : BlockUpd := ⟨some "renamed", none, none, none, none, none, none⟩

/-- A partial update that sets position and tags to null (present-but-null,
which `insertBlockSchema.partial()` accepts and the spread stores). -/
def exNullUpd : BlockUpd := ⟨none, none, none, some none, some none, none, none⟩

/-- An empty partial update. -/
def exEmptyUpd : BlockUpd := ⟨none, none, none, none, none, none, none⟩

/-- An insert payload for a block. -/
def exInsertBlock : InsertBlock := ⟨"fresh", none, none, none, none, "u1", "U"⟩

/-- A store whose comments on block b1 form one root with one reply, plus a
comment on another block: thread example. -/
def exC4Store : MemStorage.Store :=
  ⟨[("b1", exBlock "b1" 1)],
   [],
   [("c1", exComment "c1" "b1" none 1), ("c2", exComment "c2" "b1" (some "c1") 2),
    ("c3", exComment "c3" "b2" none 3)]⟩

/-- A store holding a single comment whose declared parent does not exist:
orphan example. -/
def exOrphanStore : MemStorage.Store :=
  ⟨[("b1", exBlock "b1" 1)],
   [],
   [("c1", exComment "c1" "b1" (some "ghost") 1)]⟩

/-- A broadcast event. -/
def exEvent : Routes.WsEvent := ⟨"block_created", "payload"⟩

/-- Ready connection 1. -/
def exWs1 : Routes.WsClient := ⟨1, 1⟩

/-- Ready connection 2. -/
def exWs2 : Routes.WsClient := ⟨2, 1⟩

/-- A connection whose transport is not ready (readyState CLOSED = 3). -/
def exWsClosed : Routes.WsClient := ⟨3, 3⟩

/-- A transport write that always succeeds. -/
def exGoodSend : Routes.WsClient → String → Except Unit Unit :=
  fun _ _ => Except.ok ()

/-- A transport write that throws for connection 1 and succeeds elsewhere. -/
def exThrowSend1 : Routes.WsClient → String → Except Unit Unit :=
  fun c _ => if c.clientId = 1 then Except.error () else Except.ok ()

/-- The view `getBlockWithLinks` computes on `exC5Store` for block b1. -/
def exC5BW : BlockWithLinks :=
  ⟨exBlock "b1" 1, [exBlock "b2" 2], [], [], 1, 0⟩

/-- The view `getBlockWithLinks` computes on `exSelfStore` for block b1. -/
def exSelfBW : BlockWithLinks :=
  ⟨exBlock "b1" 1, [exBlock "b1" 1], [exBlock "b1" 1], [], 2, 0⟩

theorem mapGet_mapSet_ne (id k : String) (v : α) (m : List (String × α))
    (h : k ≠ id) : mapGet k (mapSet id v m) = mapGet k m := by
  induction m with
  | nil => simp [mapSet, mapGet, Ne.symm h]
  | cons hd tl ih =>
    rcases hd with ⟨k', v'⟩
    by_cases hk : k' = id
    · subst hk
      simp [mapSet, mapGet, Ne.symm h]
    · by_cases hk2 : k' = k
      · simp [mapSet, mapGet, hk, hk2, h]
      · simp [mapSet, mapGet, hk, hk2, ih]

theorem mem_mapSet (id : String) (v : α) (m : List (String × α)) :
    ∀ kv ∈ mapSet id v m, kv ∈ m ∨ kv = (id, v) := by
  induction m with
  | nil =>
    intro kv hkv
    simp [mapSet] at hkv
    exact Or.inr hkv
  | cons hd tl ih =>
    intro kv hkv
    rcases hd with ⟨k', v'⟩
    by_cases hk : k' = id
    · subst hk
      have he : mapSet k' v ((k', v') :: tl) = (k', v) :: tl := by
        simp [mapSet]
      rw [he] at hkv
      rcases List.mem_cons.mp hkv with h | h
      · exact Or.inr h
      · exact Or.inl (List.mem_cons_of_mem _ h)
    · have he : mapSet id v ((k', v') :: tl) = (k', v') :: mapSet id v tl := by
        simp [mapSet, hk]
      rw [he] at hkv
      rcases List.mem_cons.mp hkv with h | h
      · exact Or.inl (by simp [h])
      · rcases ih kv h with h2 | h2
        · exact Or.inl (List.mem_cons_of_mem _ h2)
        · exact Or.inr h2

theorem length_filterMap_eq_countP (f : α → Option β) (l : List α) :
    (l.filterMap f).length = l.countP (fun a => (f a).isSome) := by
  induction l with
  | nil => rfl
  | cons a t ih =>
    cases hfa : f a <;>
      simp [List.filterMap_cons, hfa, List.countP_cons, ih]

theorem countP_add_countP_eq (q1 q2 q3 q4 : α → Bool) (l : List α)
    (h : ∀ a ∈ l,
      ((if q1 a then 1 else 0) + (if q2 a then 1 else 0) : Nat) =
      (if q3 a then 1 else 0) + (if q4 a then 1 else 0)) :
    l.countP q1 + l.countP q2 = l.countP q3 + l.countP q4 := by
  induction l with
  | nil => rfl
  | cons a t ih =>
    simp only [List.countP_cons]
    have ha := h a (by simp)
    have ht := ih (fun x hx => h x (by simp [hx]))
    omega

/-- C1: for every block identifier B, after `deleteBlock(B)` returns true, the
link table contains no link whose source or destination is B, and the comment
table contains no comment whose owning block is B. -/
theorem C1_deleteBlock_cascade (s : MemStorage.Store) (B : String)
    (h : (MemStorage.deleteBlock s B).1 = true) :
    (∀ kv ∈ (MemStorage.deleteBlock s B).2.links,
      kv.2.fromBlockId ≠ B ∧ kv.2.toBlockId ≠ B) ∧
    (∀ kv ∈ (MemStorage.deleteBlock s B).2.comments, kv.2.blockId ≠ B) := by
  cases hB : mapHas B s.blocks with
  | false => simp [MemStorage.deleteBlock, hB] at h
  | true =>
    constructor
    · intro kv hkv
      simp only [MemStorage.deleteBlock, hB, if_true, List.mem_filter] at hkv
      have h2 := hkv.2
      simp only [decide_eq_true_eq] at h2
      push_neg at h2
      exact h2
    · intro kv hkv
      simp only [MemStorage.deleteBlock, hB, if_true, List.mem_filter] at hkv
      have h2 := hkv.2
      simpa using h2

/-- Witness for C1 at a concrete store. -/
theorem C1_deleteBlock_cascade_witness :
    (MemStorage.deleteBlock exC1Store "b1").1 = true ∧
    ((∀ kv ∈ (MemStorage.deleteBlock exC1Store "b1").2.links,
        kv.2.fromBlockId ≠ "b1" ∧ kv.2.toBlockId ≠ "b1") ∧
      (∀ kv ∈ (MemStorage.deleteBlock exC1Store "b1").2.comments,
        kv.2.blockId ≠ "b1")) :=
  ⟨by decide, C1_deleteBlock_cascade exC1Store "b1" (by decide)⟩

/-- C2: if a link between A and B exists in either direction, a link-creation
request between A and B in either direction is rejected with the conflict
response (`createLink` is not invoked) and the store is unchanged. -/
theorem C2_duplicate_link_conflict (s : MemStorage.Store) (A B : String)
    (l : Link) (r : InsertLink) (newId : String) (now : Nat)
    (hl : l ∈ values s.links)
    (hdir : (l.fromBlockId = A ∧ l.toBlockId = B) ∨
      (l.fromBlockId = B ∧ l.toBlockId = A))
    (hreq : (r.fromBlockId = A ∧ r.toBlockId = B) ∨
      (r.fromBlockId = B ∧ r.toBlockId = A)) :
    Routes.postLinks s r newId now = (Routes.CreateLinkResult.conflict, s) := by
  have hmem : l ∈ MemStorage.getLinksBetween s r.fromBlockId r.toBlockId := by
    simp only [MemStorage.getLinksBetween, List.mem_filter]
    refine ⟨hl, ?_⟩
    rcases hreq with ⟨h1, h2⟩ | ⟨h1, h2⟩ <;> rcases hdir with ⟨h3, h4⟩ | ⟨h3, h4⟩ <;>
      simp [h1, h2, h3, h4]
  have hpos : 0 < (MemStorage.getLinksBetween s r.fromBlockId r.toBlockId).length :=
    List.length_pos.mpr (List.ne_nil_of_mem hmem)
  simp only [Routes.postLinks]
  rw [if_pos hpos]

/-- Witness for C2: the reversed request against an existing A-to-B link. -/
theorem C2_duplicate_link_conflict_witness :
    Routes.postLinks exC2Store exC2Req "l2" 7 =
      (Routes.CreateLinkResult.conflict, exC2Store) :=
  C2_duplicate_link_conflict exC2Store "A" "B" (exLink "l1" "A" "B") exC2Req
    "l2" 7 (by decide) (by decide) (by decide)

/-- C10: `getBlocks` returns every block of the store, arranged by
`updatedAt` descending. -/
theorem C10_getBlocks_recency_order (s : MemStorage.Store) :
    List.Perm (MemStorage.getBlocks s) (values s.blocks) ∧
    (MemStorage.getBlocks s).Pairwise (fun a b => b.updatedAt ≤ a.updatedAt) := by
  constructor
  · exact List.perm_insertionSort _ _
  · haveI : IsTotal Block (fun a b => b.updatedAt ≤ a.updatedAt) :=
      ⟨fun a b => le_total _ _⟩
    haveI : IsTrans Block (fun a b => b.updatedAt ≤ a.updatedAt) :=
      ⟨fun _ _ _ hab hbc => le_trans hbc hab⟩
    exact List.sorted_insertionSort _ _

/-- C7: `updateBlock(id, updates)` on a present id overwrites exactly the
fields present in the payload, refreshes `updatedAt`, keeps `id`, `createdAt`,
every absent field, every other block, and the link and comment tables; on an
absent id it returns none and leaves the store unchanged. -/
theorem C7_updateBlock_frame (s : MemStorage.Store) (id : String)
    (u : BlockUpd) (now : Nat) :
    (∀ b, mapGet id s.blocks = some b →
      (MemStorage.updateBlock s id u now).1 = some (MemStorage.mergeBlock b u now) ∧
      (MemStorage.updateBlock s id u now).2.blocks =
        mapSet id (MemStorage.mergeBlock b u now) s.blocks ∧
      (MemStorage.updateBlock s id u now).2.links = s.links ∧
      (MemStorage.updateBlock s id u now).2.comments = s.comments ∧
      (MemStorage.mergeBlock b u now).id = b.id ∧
      (MemStorage.mergeBlock b u now).createdAt = b.createdAt ∧
      (MemStorage.mergeBlock b u now).updatedAt = now ∧
      (u.title = none → (MemStorage.mergeBlock b u now).title = b.title) ∧
      (∀ v, u.title = some v → (MemStorage.mergeBlock b u now).title = v) ∧
      (u.content = none → (MemStorage.mergeBlock b u now).content = b.content) ∧
      (∀ v, u.content = some v → (MemStorage.mergeBlock b u now).content = v) ∧
      (u.contentType = none →
        (MemStorage.mergeBlock b u now).contentType = b.contentType) ∧
      (∀ v, u.contentType = some v →
        (MemStorage.mergeBlock b u now).contentType = v) ∧
      (u.position = none → (MemStorage.mergeBlock b u now).position = b.position) ∧
      (∀ v, u.position = some v → (MemStorage.mergeBlock b u now).position = v) ∧
      (u.tags = none → (MemStorage.mergeBlock b u now).tags = b.tags) ∧
      (∀ v, u.tags = some v → (MemStorage.mergeBlock b u now).tags = v) ∧
      (u.authorId = none → (MemStorage.mergeBlock b u now).authorId = b.authorId) ∧
      (∀ v, u.authorId = some v → (MemStorage.mergeBlock b u now).authorId = v) ∧
      (u.authorName = none →
        (MemStorage.mergeBlock b u now).authorName = b.authorName) ∧
      (∀ v, u.authorName = some v →
        (MemStorage.mergeBlock b u now).authorName = v) ∧
      (∀ k, k ≠ id →
        mapGet k (MemStorage.updateBlock s id u now).2.blocks =
          mapGet k s.blocks)) ∧
    (mapGet id s.blocks = none → MemStorage.updateBlock s id u now = (none, s)) := by
  constructor
  · intro b hb
    have hu : MemStorage.updateBlock s id u now =
        (some (MemStorage.mergeBlock b u now),
          { s with blocks := mapSet id (MemStorage.mergeBlock b u now) s.blocks }) := by
      simp [MemStorage.updateBlock, hb]
    rw [hu]
    refine ⟨rfl, rfl, rfl, rfl, rfl, rfl, rfl,
      fun h => by simp [MemStorage.mergeBlock, h],
      fun v h => by simp [MemStorage.mergeBlock, h],
      fun h => by simp [MemStorage.mergeBlock, h],
      fun v h => by simp [MemStorage.mergeBlock, h],
      fun h => by simp [MemStorage.mergeBlock, h],
      fun v h => by simp [MemStorage.mergeBlock, h],
      fun h => by simp [MemStorage.mergeBlock, h],
      fun v h => by simp [MemStorage.mergeBlock, h],
      fun h => by simp [MemStorage.mergeBlock, h],
      fun v h => by simp [MemStorage.mergeBlock, h],
      fun h => by simp [MemStorage.mergeBlock, h],
      fun v h => by simp [MemStorage.mergeBlock, h],
      fun h => by simp [MemStorage.mergeBlock, h],
      fun v h => by simp [MemStorage.mergeBlock, h],
      fun k hk => mapGet_mapSet_ne id k _ s.blocks hk⟩
  · intro hnone
    simp [MemStorage.updateBlock, hnone]

/-- Witness for C7: a title-only update and a null-position/null-tags update
on a present id, and an update on an absent id. -/
theorem C7_updateBlock_frame_witness :
    (MemStorage.updateBlock exC7Store "b1" exC7Upd 5).1 =
      some (MemStorage.mergeBlock (exBlock "b1" 1) exC7Upd 5) ∧
    (MemStorage.mergeBlock (exBlock "b1" 1) exC7Upd 5).createdAt =
      (exBlock "b1" 1).createdAt ∧
    (MemStorage.mergeBlock (exBlock "b1" 1) exNullUpd 5).position = none ∧
    MemStorage.updateBlock exC7Store "zz" exC7Upd 5 = (none, exC7Store) := by
  have h1 := (C7_updateBlock_frame exC7Store "b1" exC7Upd 5).1
    (exBlock "b1" 1) (by decide)
  have h2 := (C7_updateBlock_frame exC7Store "zz" exC7Upd 5).2 (by decide)
  have h3 := (C7_updateBlock_frame exC7Store "b1" exNullUpd 5).1
    (exBlock "b1" 1) (by decide)
  exact ⟨h1.1, h1.2.2.2.2.2.1,
    h3.2.2.2.2.2.2.2.2.2.2.2.2.2.2.1 none rfl, h2⟩

/-- C8: every stored block satisfies `updatedAt >= createdAt`; `createBlock`
establishes it (both timestamps set to the creation instant) and
`updateBlock` maintains it for any update instant not before the block's
creation (the wall clock never runs backwards); `deleteBlock` trivially
preserves it. -/
theorem C8_times_invariant (s : MemStorage.Store) (h : storeTimesOk s) :
    (∀ ins newId now,
      storeTimesOk (MemStorage.createBlock s ins newId now).2 ∧
      (MemStorage.createBlock s ins newId now).1.createdAt = now ∧
      (MemStorage.createBlock s ins newId now).1.updatedAt = now) ∧
    (∀ id u now b, mapGet id s.blocks = some b → b.createdAt ≤ now →
      storeTimesOk (MemStorage.updateBlock s id u now).2) ∧
    (∀ id, storeTimesOk (MemStorage.deleteBlock s id).2) := by
  refine ⟨?_, ?_, ?_⟩
  · intro ins newId now
    refine ⟨?_, rfl, rfl⟩
    intro kv hkv
    rcases mem_mapSet newId _ s.blocks kv hkv with hmem | heq
    · exact h kv hmem
    · rw [heq]
  · intro id u now b hb hle kv hkv
    have hbl : (MemStorage.updateBlock s id u now).2.blocks =
        mapSet id (MemStorage.mergeBlock b u now) s.blocks := by
      simp [MemStorage.updateBlock, hb]
    rw [hbl] at hkv
    rcases mem_mapSet id _ s.blocks kv hkv with hmem | heq
    · exact h kv hmem
    · rw [heq]
      simpa [MemStorage.mergeBlock] using hle
  · intro id kv hkv
    have hmem : kv ∈ s.blocks := by
      cases hB : mapHas id s.blocks
      · simp [MemStorage.deleteBlock, hB, mapDelete, List.mem_filter] at hkv
        exact hkv.1
      · simp [MemStorage.deleteBlock, hB, mapDelete, List.mem_filter] at hkv
        exact hkv.1
    exact h kv hmem

/-- Witness for C8 at a concrete store and instant. -/
theorem C8_times_invariant_witness :
    storeTimesOk (MemStorage.createBlock exC7Store exInsertBlock "b9" 5).2 ∧
    storeTimesOk (MemStorage.updateBlock exC7Store "b1" exC7Upd 5).2 ∧
    storeTimesOk (MemStorage.deleteBlock exC7Store "b1").2 := by
  have h := C8_times_invariant exC7Store (by intro kv hkv; fin_cases hkv; decide)
  exact ⟨(h.1 exInsertBlock "b9" 5).1,
    h.2.1 "b1" exC7Upd 5 (exBlock "b1" 1) (by decide) (by decide),
    h.2.2 "b1"⟩

theorem sendAll_all_ok (send : Routes.WsClient → String → Except Unit Unit)
    (msg : String) :
    ∀ cl : List Routes.WsClient, (∀ c ∈ cl, send c msg = Except.ok ()) →
      Routes.sendAll send msg cl =
        ((cl.filter (fun c => c.readyState = Routes.wsOPEN)).map
          (fun c => (c, msg)), none) := by
  intro cl
  induction cl with
  | nil => intro _; rfl
  | cons a t ih =>
    intro hcl
    have ha := hcl a (by simp)
    have ht := ih (fun c hc => hcl c (List.mem_cons_of_mem _ hc))
    by_cases hr : a.readyState = Routes.wsOPEN
    · simp [Routes.sendAll, hr, ha, ht, List.filter_cons]
    · simp [Routes.sendAll, hr, ht, List.filter_cons]

/-- C6: `broadcastToClients` serializes the event once; every registered
connection whose transport is ready receives that identical serialized
string, a connection not ready is silently skipped, and no exception
escapes when no send throws. -/
theorem C6_broadcast_fanout (send : Routes.WsClient → String → Except Unit Unit)
    (clients : List Routes.WsClient) (m : Routes.WsEvent)
    (h : ∀ c ∈ clients, send c (Routes.serializeEvent m) = Except.ok ()) :
    Routes.broadcastToClients send clients m =
      ((clients.filter (fun c => c.readyState = Routes.wsOPEN)).map
        (fun c => (c, Routes.serializeEvent m)), none) :=
  sendAll_all_ok send (Routes.serializeEvent m) clients h

/-- Witness for C6: two ready connections and one closed one. -/
theorem C6_broadcast_fanout_witness :
    Routes.broadcastToClients exGoodSend [exWs1, exWsClosed, exWs2] exEvent =
      (([exWs1, exWsClosed, exWs2].filter
          (fun c => c.readyState = Routes.wsOPEN)).map
        (fun c => (c, Routes.serializeEvent exEvent)), none) :=
  C6_broadcast_fanout exGoodSend [exWs1, exWsClosed, exWs2] exEvent
    (by intro c hc; fin_cases hc <;> rfl)

/-- Counterexample to C3 as stated: with two registered ready connections,
a throw on the first send leaves the second ready connection without the
event, and the exception escapes the broadcast. -/
theorem C3_counterexample :
    exWs2 ∈ [exWs1, exWs2] ∧ exWs2.readyState = Routes.wsOPEN ∧
    ¬ ((exWs2, Routes.serializeEvent exEvent) ∈
        (Routes.broadcastToClients exThrowSend1 [exWs1, exWs2] exEvent).1) ∧
    (Routes.broadcastToClients exThrowSend1 [exWs1, exWs2] exEvent).2 =
      some () := by
  refine ⟨by decide, by decide, by decide, by decide⟩

/-- C3 amended: a throw on one send aborts the fan-out: ready connections
earlier in iteration order keep their deliveries, no connection after the
throwing one receives the event, and the exception propagates. -/
theorem C3_send_throw_aborts (send : Routes.WsClient → String → Except Unit Unit)
    (pre : List Routes.WsClient) (bad : Routes.WsClient)
    (post : List Routes.WsClient) (m : Routes.WsEvent)
    (hpre : ∀ c ∈ pre, send c (Routes.serializeEvent m) = Except.ok ())
    (hbadReady : bad.readyState = Routes.wsOPEN)
    (hbadThrow : send bad (Routes.serializeEvent m) = Except.error ()) :
    Routes.broadcastToClients send (pre ++ bad :: post) m =
      ((pre.filter (fun c => c.readyState = Routes.wsOPEN)).map
        (fun c => (c, Routes.serializeEvent m)), some ()) := by
  simp only [Routes.broadcastToClients]
  induction pre with
  | nil =>
    simp [Routes.sendAll, hbadReady, hbadThrow]
  | cons a t ih =>
    have ha := hpre a (by simp)
    have ht := ih (fun c hc => hpre c (List.mem_cons_of_mem _ hc))
    by_cases hr : a.readyState = Routes.wsOPEN
    · simp [Routes.sendAll, hr, ha, List.filter_cons, ht]
    · simp [Routes.sendAll, hr, List.filter_cons, ht]

/-- Witness for C3 amended: the connection before the throwing one is served,
the one after it is not. -/
theorem C3_send_throw_aborts_witness :
    Routes.broadcastToClients exThrowSend1 [exWs2, exWs1, exWsClosed] exEvent =
      (([exWs2].filter (fun c => c.readyState = Routes.wsOPEN)).map
        (fun c => (c, Routes.serializeEvent exEvent)), some ()) :=
  C3_send_throw_aborts exThrowSend1 [exWs2] exWs1 [exWsClosed] exEvent
    (by intro c hc; fin_cases hc; rfl) (by decide) rfl

theorem linkCount_decomp (s : MemStorage.Store) (B : String)
    (bw : BlockWithLinks) (hbw : MemStorage.getBlockWithLinks s B = some bw) :
    bw.linkCount = incidentResolvableLinkCount s B + selfLinkOnCount s B := by
  rcases hGet : mapGet B s.blocks with _ | blk
  · simp [MemStorage.getBlockWithLinks, hGet] at hbw
  · simp only [MemStorage.getBlockWithLinks, hGet, Option.some.injEq] at hbw
    subst hbw
    have hB : (mapGet B s.blocks).isSome = true := by rw [hGet]; rfl
    show (((values s.links).filter (fun l => l.fromBlockId = B)).filterMap
        (fun l => mapGet l.toBlockId s.blocks)).length +
      (((values s.links).filter (fun l => l.toBlockId = B)).filterMap
        (fun l => mapGet l.fromBlockId s.blocks)).length =
      incidentResolvableLinkCount s B + selfLinkOnCount s B
    rw [length_filterMap_eq_countP, length_filterMap_eq_countP,
      List.countP_filter, List.countP_filter,
      incidentResolvableLinkCount, selfLinkOnCount,
      ← List.countP_eq_length_filter, ← List.countP_eq_length_filter]
    apply countP_add_countP_eq
    intro a _
    by_cases hf : a.fromBlockId = B <;> by_cases ht : a.toBlockId = B
    · simp [hf, ht, hB, mapHas]
    · simp [hf, ht, mapHas]
    · simp [hf, ht, mapHas]
    · simp [hf, ht]

/-- Counterexample to C5 as stated: on a store holding one block with a
self-link, `linkCount` is 2 while only one incident resolvable link exists. -/
theorem C5_counterexample :
    ¬ ((MemStorage.getBlockWithLinks exSelfStore "b1").map
        (fun bw => bw.linkCount) =
      some (incidentResolvableLinkCount exSelfStore "b1")) := by
  decide

/-- C5 amended: for a block with no self-link, `linkCount` equals the number
of links incident to it whose opposite endpoint still resolves to an existing
block. -/
theorem C5_linkCount_no_self (s : MemStorage.Store) (B : String)
    (bw : BlockWithLinks) (hbw : MemStorage.getBlockWithLinks s B = some bw)
    (hnoself : ∀ l ∈ values s.links,
      ¬ (l.fromBlockId = B ∧ l.toBlockId = B)) :
    bw.linkCount = incidentResolvableLinkCount s B := by
  have h := linkCount_decomp s B bw hbw
  have hz : selfLinkOnCount s B = 0 := by
    rw [selfLinkOnCount, List.length_eq_zero, List.filter_eq_nil_iff]
    intro a ha
    simpa using hnoself a ha
  omega

/-- Witness for C5 amended: a store with one resolvable link and two dangling
links. -/
theorem C5_linkCount_no_self_witness :
    exC5BW.linkCount = incidentResolvableLinkCount exC5Store "b1" :=
  C5_linkCount_no_self exC5Store "b1" exC5BW (by decide) (by decide)

/-- C9: a self-link on B lands in both `linkedTo` and `linkedFrom` of
`getBlockWithLinks(B)`, so `linkCount` counts every self-link twice on top of
the once-per-link incident resolvable count. -/
theorem C9_self_link_double (s : MemStorage.Store) (B : String)
    (bw : BlockWithLinks) (hbw : MemStorage.getBlockWithLinks s B = some bw) :
    bw.linkCount = incidentResolvableLinkCount s B + selfLinkOnCount s B ∧
    (∀ l ∈ values s.links, l.fromBlockId = B → l.toBlockId = B →
      bw.block ∈ bw.linkedTo ∧ bw.block ∈ bw.linkedFrom) := by
  refine ⟨linkCount_decomp s B bw hbw, ?_⟩
  intro l hl hf ht
  rcases hGet : mapGet B s.blocks with _ | blk
  · simp [MemStorage.getBlockWithLinks, hGet] at hbw
  · simp only [MemStorage.getBlockWithLinks, hGet, Option.some.injEq] at hbw
    subst hbw
    constructor
    · exact List.mem_filterMap.mpr
        ⟨l, List.mem_filter.mpr ⟨hl, by simp [hf]⟩, by rw [ht, hGet]⟩
    · exact List.mem_filterMap.mpr
        ⟨l, List.mem_filter.mpr ⟨hl, by simp [ht]⟩, by rw [hf, hGet]⟩

/-- Witness for C9 at the self-link store. -/
theorem C9_self_link_double_witness :
    exSelfBW.linkCount =
      incidentResolvableLinkCount exSelfStore "b1" +
        selfLinkOnCount exSelfStore "b1" ∧
    (exSelfBW.block ∈ exSelfBW.linkedTo ∧ exSelfBW.block ∈ exSelfBW.linkedFrom) := by
  have h := C9_self_link_double exSelfStore "b1" exSelfBW (by decide)
  exact ⟨h.1, h.2 (exLink "ls" "b1" "b1") (by decide) rfl rfl⟩

open MemStorage

theorem childComments_eq (bc : List Comment) (c : Comment) :
    childComments bc c = bc.filter (fun d => decide (parentRef d = some c.id)) := by
  apply List.filter_congr
  intro d _
  unfold parentRef jsTruthy
  cases hp : d.parentId with
  | none => simp
  | some p => by_cases hps : p = "" <;> simp [hps]

theorem rootList_eq (bc : List Comment) :
    rootList bc = bc.filter (fun c => decide (parentRef c = none)) := by
  apply List.filter_congr
  intro d _
  unfold parentRef jsTruthy
  cases hp : d.parentId with
  | none => simp
  | some p => by_cases hps : p = "" <;> simp [hps]

theorem flatForest_map (g : Comment → CommentWithReplies) (l : List Comment) :
    flatForest (l.map g) = l.flatMap (fun c => flatTree (g c)) := by
  induction l with
  | nil => rfl
  | cons a t ih => simp [flatForest, List.flatMap_cons, ih]

theorem flatTree_buildTree_succ (bc : List Comment) (f : Nat) (c : Comment) :
    flatTree (buildTree bc (f + 1) c) =
      c :: (childComments bc c).flatMap (fun d => flatTree (buildTree bc f d)) := by
  rw [buildTree, flatTree, flatForest_map]

theorem iterUnion_nil (ch : α → List α) (f : Nat) : iterUnion ch [] f = [] := by
  induction f with
  | zero => rfl
  | succ f ih => simpa [iterUnion] using ih

theorem flatForest_buildTree_perm (bc : List Comment) :
    ∀ (f : Nat) (l : List Comment),
      List.Perm (flatForest (l.map (buildTree bc f)))
        (iterUnion (childComments bc) l f) := by
  intro f
  induction f with
  | zero =>
    intro l
    rw [flatForest_map]
    have h1 : (fun c => flatTree (buildTree bc 0 c)) = (fun c : Comment => [c]) := rfl
    rw [h1]
    simp [iterUnion]
  | succ f ih =>
    intro l
    rw [flatForest_map]
    have h1 : (fun c => flatTree (buildTree bc (f + 1) c)) =
        (fun c => c :: (childComments bc c).flatMap
          (fun d => flatTree (buildTree bc f d))) := by
      funext c
      exact flatTree_buildTree_succ bc f c
    rw [h1]
    have h2 := List.map_append_flatMap_perm l id
      (fun c => (childComments bc c).flatMap (fun d => flatTree (buildTree bc f d)))
    rw [List.map_id] at h2
    refine h2.symm.trans ?_
    show List.Perm _ (l ++ iterUnion (childComments bc)
      (l.flatMap (childComments bc)) f)
    apply List.Perm.append_left
    rw [← List.flatMap_assoc, ← flatForest_map]
    exact ih (l.flatMap (childComments bc))

theorem flatMap_replicate_nil (ch : α → List α) (cm : α) (h : ch cm = [])
    (m : Nat) : (List.replicate m cm).flatMap ch = [] := by
  induction m with
  | zero => rfl
  | succ m ih => simp [List.replicate_succ, List.flatMap_cons, h, ih]

theorem if_single_eq_replicate (b : Bool) (cm : α) :
    (if b then [cm] else []) = List.replicate (if b then 1 else 0) cm := by
  cases b <;> rfl

theorem append_replicate_shuffle (A B : List α) (cm : α) (m k : Nat) :
    List.Perm ((A ++ List.replicate m cm) ++ (B ++ List.replicate k cm))
      ((A ++ B) ++ List.replicate (m + k) cm) := by
  rw [List.append_assoc, List.append_assoc]
  apply List.Perm.append_left
  refine List.perm_append_comm.trans ?_
  rw [List.append_assoc, ← List.replicate_add, Nat.add_comm k m]

theorem flatMap_ch_rel (ch ch' : α → List α) (cm : α) (P : α → Prop)
    (pq : α → Bool)
    (h2 : ∀ x, P x → List.Perm (ch x) (ch' x ++ if pq x then [cm] else []))
    (l' : List α) (hP : ∀ x ∈ l', P x) :
    List.Perm (l'.flatMap ch)
      (l'.flatMap ch' ++ List.replicate (l'.countP pq) cm) := by
  induction l' with
  | nil => simp
  | cons a t ih =>
    have ha := h2 a (hP a (by simp))
    have ht := ih (fun x hx => hP x (List.mem_cons_of_mem _ hx))
    rw [List.flatMap_cons, List.flatMap_cons, List.countP_cons]
    refine (List.Perm.append ha ht).trans ?_
    rw [if_single_eq_replicate]
    exact append_replicate_shuffle (ch' a) (t.flatMap ch') cm _ _ |>.trans
      (by rw [Nat.add_comm (if pq a = true then 1 else 0)])

theorem flatMap_rel_of_perm (ch ch' : α → List α) (cm : α) (P : α → Prop)
    (pq : α → Bool) (h1 : ch cm = [])
    (h2 : ∀ x, P x → List.Perm (ch x) (ch' x ++ if pq x then [cm] else []))
    (l l' : List α) (m : Nat)
    (hl : List.Perm l (l' ++ List.replicate m cm)) (hP : ∀ x ∈ l', P x) :
    List.Perm (l.flatMap ch)
      (l'.flatMap ch' ++ List.replicate (l'.countP pq) cm) := by
  have e1 : List.Perm (l.flatMap ch) ((l' ++ List.replicate m cm).flatMap ch) :=
    List.Perm.flatMap_right ch hl
  rw [List.flatMap_append, flatMap_replicate_nil ch cm h1, List.append_nil] at e1
  exact e1.trans (flatMap_ch_rel ch ch' cm P pq h2 l' hP)

theorem inject_perm (ch ch' : α → List α) (cm : α) (P : α → Prop)
    (pq : α → Bool) (h1 : ch cm = [])
    (h2 : ∀ x, P x → List.Perm (ch x) (ch' x ++ if pq x then [cm] else []))
    (h3 : ∀ x, P x → ∀ y ∈ ch' x, P y) :
    ∀ (f : Nat) (l l' : List α) (m : Nat),
      List.Perm l (l' ++ List.replicate m cm) → (∀ x ∈ l', P x) →
      List.Perm (iterUnion ch l f)
        (iterUnion ch' l' f ++ List.replicate (m + cqP ch' pq l' f) cm) := by
  intro f
  induction f with
  | zero =>
    intro l l' m hl hP
    simpa [iterUnion, cqP] using hl
  | succ f ih =>
    intro l l' m hl hP
    have hstep := flatMap_rel_of_perm ch ch' cm P pq h1 h2 l l' m hl hP
    have hP' : ∀ x ∈ l'.flatMap ch', P x := by
      intro x hx
      rcases List.mem_flatMap.mp hx with ⟨a, ha, hxa⟩
      exact h3 a (hP a ha) x hxa
    have hih := ih (l.flatMap ch) (l'.flatMap ch') (l'.countP pq) hstep hP'
    show List.Perm (l ++ iterUnion ch (l.flatMap ch) f) _
    refine (List.Perm.append hl hih).trans ?_
    refine (append_replicate_shuffle l' (iterUnion ch' (l'.flatMap ch') f)
      cm m _).trans ?_
    show List.Perm _ ((l' ++ iterUnion ch' (l'.flatMap ch') f) ++
      List.replicate (m + (l'.countP pq + cqP ch' pq (l'.flatMap ch') f)) cm)
    exact List.Perm.refl _

theorem lastLevel_nil (ch : α → List α) (f : Nat) : lastLevel ch [] f = [] := by
  induction f with
  | zero => rfl
  | succ f ih => simpa [lastLevel] using ih

theorem lastLevel_append_fuel (ch : α → List α) (a b : Nat) :
    ∀ l : List α, lastLevel ch l (a + b) = lastLevel ch (lastLevel ch l a) b := by
  induction a with
  | zero =>
    intro l
    rw [Nat.zero_add]
    rfl
  | succ a ih =>
    intro l
    rw [Nat.succ_add]
    show lastLevel ch (l.flatMap ch) (a + b) = _
    rw [ih (l.flatMap ch)]
    rfl

theorem lastLevel_eq_nil_of_le (ch : α → List α) (l : List α) (a b : Nat)
    (ha : lastLevel ch l a = []) (hab : a ≤ b) : lastLevel ch l b = [] := by
  obtain ⟨c, rfl⟩ := Nat.exists_eq_add_of_le hab
  rw [lastLevel_append_fuel, ha, lastLevel_nil]

theorem countP_iterUnion (ch : α → List α) (pq : α → Bool) :
    ∀ (f : Nat) (l : List α),
      (iterUnion ch l f).countP pq =
        cqP ch pq l f + (lastLevel ch l f).countP pq := by
  intro f
  induction f with
  | zero => intro l; simp [iterUnion, cqP, lastLevel]
  | succ f ih =>
    intro l
    show (l ++ iterUnion ch (l.flatMap ch) f).countP pq = _
    rw [List.countP_append, ih (l.flatMap ch)]
    show _ = l.countP pq + cqP ch pq (l.flatMap ch) f +
      (lastLevel ch (l.flatMap ch) f).countP pq
    omega

theorem lastLevel_rel (ch ch' : α → List α) (cm : α) (P : α → Prop)
    (pq : α → Bool) (h1 : ch cm = [])
    (h2 : ∀ x, P x → List.Perm (ch x) (ch' x ++ if pq x then [cm] else []))
    (h3 : ∀ x, P x → ∀ y ∈ ch' x, P y) :
    ∀ (f : Nat) (l l' : List α) (m : Nat),
      List.Perm l (l' ++ List.replicate m cm) → (∀ x ∈ l', P x) →
      List.Perm (lastLevel ch l (f + 1))
        (lastLevel ch' l' (f + 1) ++
          List.replicate ((lastLevel ch' l' f).countP pq) cm) := by
  intro f
  induction f with
  | zero =>
    intro l l' m hl hP
    show List.Perm (lastLevel ch (l.flatMap ch) 0) _
    exact flatMap_rel_of_perm ch ch' cm P pq h1 h2 l l' m hl hP
  | succ f ih =>
    intro l l' m hl hP
    have hstep := flatMap_rel_of_perm ch ch' cm P pq h1 h2 l l' m hl hP
    have hP' : ∀ x ∈ l'.flatMap ch', P x := by
      intro x hx
      rcases List.mem_flatMap.mp hx with ⟨a, ha, hxa⟩
      exact h3 a (hP a ha) x hxa
    exact ih (l.flatMap ch) (l'.flatMap ch') (l'.countP pq) hstep hP'

theorem countP_key_eq_one {κ : Type} [DecidableEq κ] (key : α → κ)
    (l : List α) (q : α) (hnd : (l.map key).Nodup) (hq : q ∈ l) :
    l.countP (fun x => decide (key x = key q)) = 1 := by
  induction l with
  | nil => cases hq
  | cons a t ih =>
    rw [List.countP_cons]
    have hnda : key a ∉ t.map key := (List.nodup_cons.mp (by simpa using hnd)).1
    have hndt : (t.map key).Nodup := (List.nodup_cons.mp (by simpa using hnd)).2
    rcases List.mem_cons.mp hq with heq | hqt
    · rw [heq]
      have hz : t.countP (fun x => decide (key x = key a)) = 0 := by
        rw [List.countP_eq_zero]
        intro x hx
        simp only [decide_eq_true_eq]
        intro hkey
        exact hnda (hkey ▸ List.mem_map_of_mem key hx)
      simp [hz]
    · have hne : ¬ (key a = key q) := by
        intro he
        exact hnda (he ▸ List.mem_map_of_mem key hqt)
      simp [ih hndt hqt, hne]

theorem exists_max_rank (rank : α → Nat) (l : List α) (hne : l ≠ []) :
    ∃ c ∈ l, ∀ d ∈ l, rank d ≤ rank c := by
  induction l with
  | nil => exact absurd rfl hne
  | cons a t ih =>
    by_cases ht : t = []
    · subst ht
      exact ⟨a, by simp, by simp⟩
    · obtain ⟨c, hc, hmax⟩ := ih ht
      by_cases hac : rank a ≤ rank c
      · refine ⟨c, List.mem_cons_of_mem _ hc, ?_⟩
        intro d hd
        rcases List.mem_cons.mp hd with rfl | hdt
        · exact hac
        · exact hmax d hdt
      · refine ⟨a, by simp, ?_⟩
        intro d hd
        rcases List.mem_cons.mp hd with rfl | hdt
        · exact le_rfl
        · exact le_trans (hmax d hdt) (le_of_not_le hac)

theorem main_step (bc bc' : List Comment) (cm : Comment) (pq : Comment → Bool)
    (m : Nat)
    (hperm : List.Perm bc (cm :: bc'))
    (hlen : bc.length = bc'.length + 1)
    (h1 : childComments bc cm = [])
    (h2 : ∀ x ∈ bc', List.Perm (childComments bc x)
      (childComments bc' x ++ if pq x then [cm] else []))
    (hroots : List.Perm (rootList bc) (rootList bc' ++ List.replicate m cm))
    (hcnt : m + bc'.countP pq = 1)
    (IHperm : ∀ f, bc'.length ≤ f →
      List.Perm (iterUnion (childComments bc') (rootList bc') f) bc')
    (IHlast : lastLevel (childComments bc') (rootList bc') bc'.length = []) :
    (∀ f, bc.length ≤ f →
      List.Perm (iterUnion (childComments bc) (rootList bc) f) bc) ∧
    lastLevel (childComments bc) (rootList bc) bc.length = [] := by
  have h3 : ∀ x : Comment, x ∈ bc' → ∀ y ∈ childComments bc' x, y ∈ bc' := by
    intro x _ y hy
    exact List.mem_of_mem_filter hy
  have hPr : ∀ x ∈ rootList bc', x ∈ bc' := fun x hx => List.mem_of_mem_filter hx
  have h2' : ∀ x : Comment, x ∈ bc' → List.Perm (childComments bc x)
      (childComments bc' x ++ if pq x then [cm] else []) := h2
  constructor
  · intro f hf
    have hf' : bc'.length ≤ f := by omega
    have hinj := inject_perm (childComments bc) (childComments bc') cm
      (fun x => x ∈ bc') pq h1 h2' h3 f (rootList bc) (rootList bc') m
      hroots hPr
    have hlast0 : lastLevel (childComments bc') (rootList bc') f = [] :=
      lastLevel_eq_nil_of_le _ _ _ _ IHlast hf'
    have hcq : cqP (childComments bc') pq (rootList bc') f = bc'.countP pq := by
      have hci := countP_iterUnion (childComments bc') pq f (rootList bc')
      rw [hlast0] at hci
      simp only [List.countP_nil, Nat.add_zero] at hci
      rw [← hci]
      exact List.Perm.countP_eq pq (IHperm f hf')
    rw [hcq, hcnt] at hinj
    refine hinj.trans ?_
    refine (List.Perm.append (IHperm f hf') (List.Perm.refl _)).trans ?_
    refine List.perm_append_comm.trans ?_
    show List.Perm (cm :: bc') bc
    exact hperm.symm
  · rw [hlen]
    have hrel := lastLevel_rel (childComments bc) (childComments bc') cm
      (fun x => x ∈ bc') pq h1 h2' h3 bc'.length (rootList bc) (rootList bc')
      m hroots hPr
    rw [IHlast] at hrel
    have hz : lastLevel (childComments bc') (rootList bc') (bc'.length + 1) = [] := by
      rw [lastLevel_append_fuel (childComments bc') bc'.length 1, IHlast]
      rfl
    rw [hz] at hrel
    simp only [List.countP_nil, List.replicate_zero, List.nil_append,
      List.append_nil] at hrel
    exact hrel.eq_nil

theorem levels_main (rank : Comment → Nat) :
    ∀ (n : Nat) (bc : List Comment), bc.length ≤ n →
    (bc.map (fun c => c.id)).Nodup →
    (∀ c ∈ bc, ∀ p, parentRef c = some p →
      ∃ d ∈ bc, d.id = p ∧ rank d < rank c) →
    (∀ f, bc.length ≤ f →
      List.Perm (iterUnion (childComments bc) (rootList bc) f) bc) ∧
    lastLevel (childComments bc) (rootList bc) bc.length = [] := by
  intro n
  induction n with
  | zero =>
    intro bc hlen _ _
    have hbc : bc = [] := List.eq_nil_of_length_eq_zero (Nat.le_zero.mp hlen)
    subst hbc
    constructor
    · intro f _
      show List.Perm (iterUnion (childComments []) [] f) []
      rw [iterUnion_nil]
    · rfl
  | succ n ihn =>
    intro bc hlen hnd hpar
    by_cases hbc : bc = []
    · subst hbc
      constructor
      · intro f _
        show List.Perm (iterUnion (childComments []) [] f) []
        rw [iterUnion_nil]
      · rfl
    · obtain ⟨cm, hcm, hmax⟩ := exists_max_rank rank bc hbc
      have hperm : List.Perm bc (cm :: bc.erase cm) := List.perm_cons_erase hcm
      have hlpos : 0 < bc.length := List.length_pos.mpr hbc
      have hlen' : (bc.erase cm).length = bc.length - 1 :=
        List.length_erase_of_mem hcm
      have hlen1 : bc.length = (bc.erase cm).length + 1 := by omega
      have hlenn : (bc.erase cm).length ≤ n := by omega
      have hnd' : ((bc.erase cm).map (fun c => c.id)).Nodup :=
        List.Nodup.sublist (List.Sublist.map _ (List.erase_sublist cm bc)) hnd
      have hsub : ∀ x ∈ bc.erase cm, x ∈ bc :=
        fun x hx => List.mem_of_mem_erase hx
      have hpar' : ∀ c ∈ bc.erase cm, ∀ p, parentRef c = some p →
          ∃ d ∈ bc.erase cm, d.id = p ∧ rank d < rank c := by
        intro c hc p hp
        obtain ⟨d, hd, hdid, hdlt⟩ := hpar c (hsub c hc) p hp
        have hdne : d ≠ cm := by
          intro he
          rw [he] at hdlt
          exact absurd hdlt (not_lt.mpr (hmax c (hsub c hc)))
        exact ⟨d, (List.mem_erase_of_ne hdne).mpr hd, hdid, hdlt⟩
      have h1 : childComments bc cm = [] := by
        rw [childComments_eq, List.filter_eq_nil_iff]
        intro d hd
        simp only [decide_eq_true_eq]
        intro hpd
        obtain ⟨e, he, heid, helt⟩ := hpar d hd cm.id hpd
        have hecm : e = cm := List.inj_on_of_nodup_map hnd he hcm heid
        rw [hecm] at helt
        exact absurd helt (not_lt.mpr (hmax d hd))
      have IH := ihn (bc.erase cm) hlenn hnd' hpar'
      rcases hpr : parentRef cm with _ | pId
      · -- cm is a root: it is inserted at level 0 and has no marker parent
        refine main_step bc (bc.erase cm) cm (fun _ => false) 1 hperm hlen1 h1
          ?_ ?_ ?_ IH.1 IH.2
        · intro x _
          rw [childComments_eq, childComments_eq]
          have hfp := List.Perm.filter
            (fun d => decide (parentRef d = some x.id)) hperm
          rw [List.filter_cons, hpr] at hfp
          simp at hfp
          simpa using hfp
        · rw [rootList_eq, rootList_eq]
          have hfp := List.Perm.filter (fun c => decide (parentRef c = none)) hperm
          rw [List.filter_cons, hpr] at hfp
          simp at hfp
          refine hfp.trans ?_
          rw [List.replicate_one]
          exact (List.perm_append_singleton _ _).symm
        · simp
      · -- cm has a resolvable parent q, created strictly earlier
        obtain ⟨q, hq, hqid, hqlt⟩ := hpar cm hcm pId hpr
        have hqne : q ≠ cm := by
          intro he
          rw [he] at hqlt
          exact absurd hqlt (lt_irrefl _)
        have hq' : q ∈ bc.erase cm := (List.mem_erase_of_ne hqne).mpr hq
        refine main_step bc (bc.erase cm) cm
          (fun x => decide (x.id = q.id)) 0 hperm hlen1 h1 ?_ ?_ ?_ IH.1 IH.2
        · intro x _
          rw [childComments_eq, childComments_eq]
          have hfp := List.Perm.filter
            (fun d => decide (parentRef d = some x.id)) hperm
          rw [List.filter_cons] at hfp
          by_cases hxq : x.id = q.id
          · have hpcm : parentRef cm = some x.id := by
              rw [hpr, hxq, hqid]
            rw [hpcm] at hfp
            simp at hfp
            refine hfp.trans ?_
            rw [if_pos (by simp [hxq])]
            exact (List.perm_append_singleton _ _).symm
          · have hpcm : ¬ (parentRef cm = some x.id) := by
              rw [hpr]
              intro he
              exact hxq ((hqid.trans (Option.some.inj he)).symm)
            simp [hpcm] at hfp
            simpa [hxq] using hfp
        · rw [rootList_eq, rootList_eq]
          have hfp := List.Perm.filter (fun c => decide (parentRef c = none)) hperm
          rw [List.filter_cons, hpr] at hfp
          simp at hfp
          simpa using hfp
        · have hone : (bc.erase cm).countP (fun x => decide (x.id = q.id)) = 1 := by
            simpa using countP_key_eq_one (fun c : Comment => c.id) (bc.erase cm)
              q hnd' hq'
          simp [hone]

/-- Counterexample to C4 as stated: a comment whose declared parent is absent
from the block is dropped from the returned forest, not treated as a root, so
the total returned is 0 while the block holds 1 comment. -/
theorem C4_counterexample :
    MemStorage.getCommentsForBlock exOrphanStore "b1" = [] ∧
    ¬ (sizeForest (MemStorage.getCommentsForBlock exOrphanStore "b1") =
        (commentsOnBlock exOrphanStore "b1").length) :=
  ⟨rfl, by decide⟩

/-- C4 amended: a comment is attached to its parent's replies when its truthy
`parentId` names a comment on the same block, is a root when its `parentId`
is falsy, and is dropped from the forest otherwise; when every truthy parent
reference on the block resolves to a comment on the same block and the
parent relation is acyclic — witnessed by any ranking of comments that
places each comment's parent strictly below it (ids being unique map keys) —
every comment appears exactly once: the comments of the returned trees, at
all depths, are a permutation of the comments on the block, so their total
equals the count on that block. -/
theorem C4_thread_tree (s : MemStorage.Store) (b : String)
    (rank : Comment → Nat)
    (hnd : ((commentsOnBlock s b).map (fun c => c.id)).Nodup)
    (hpar : ∀ c ∈ commentsOnBlock s b, jsTruthy c.parentId = true →
      ∃ d ∈ commentsOnBlock s b,
        some d.id = c.parentId ∧ rank d < rank c) :
    List.Perm (flatForest (MemStorage.getCommentsForBlock s b))
      (commentsOnBlock s b) ∧
    sizeForest (MemStorage.getCommentsForBlock s b) =
      (commentsOnBlock s b).length := by
  have hpsort : List.Perm (sortedComments (commentsOnBlock s b))
      (commentsOnBlock s b) := List.perm_insertionSort _ _
  have hnd' : ((sortedComments (commentsOnBlock s b)).map (fun c => c.id)).Nodup :=
    ((hpsort.map _).nodup_iff).mpr hnd
  have hpar' : ∀ c ∈ sortedComments (commentsOnBlock s b), ∀ p,
      parentRef c = some p →
      ∃ d ∈ sortedComments (commentsOnBlock s b),
        d.id = p ∧ rank d < rank c := by
    intro c hc p hp
    have hc' : c ∈ commentsOnBlock s b := hpsort.mem_iff.mp hc
    have htr : jsTruthy c.parentId = true := by
      by_contra hfalse
      rw [parentRef, if_neg hfalse] at hp
      cases hp
    obtain ⟨d, hd, hdid, hdlt⟩ := hpar c hc' htr
    refine ⟨d, hpsort.mem_iff.mpr hd, ?_, hdlt⟩
    rw [parentRef, if_pos htr] at hp
    exact Option.some.inj (hdid.trans hp)
  have hmain := levels_main rank (sortedComments (commentsOnBlock s b)).length
    (sortedComments (commentsOnBlock s b)) le_rfl hnd' hpar'
  have hu := flatForest_buildTree_perm (sortedComments (commentsOnBlock s b))
    (sortedComments (commentsOnBlock s b)).length
    (rootList (sortedComments (commentsOnBlock s b)))
  have hiter := hmain.1 (sortedComments (commentsOnBlock s b)).length le_rfl
  have hflat : List.Perm (flatForest (MemStorage.getCommentsForBlock s b))
      (commentsOnBlock s b) := by
    show List.Perm (flatForest ((rootList (sortedComments (commentsOnBlock s b))).map
      (buildTree (sortedComments (commentsOnBlock s b))
        (sortedComments (commentsOnBlock s b)).length))) _
    exact (hu.trans hiter).trans hpsort
  exact ⟨hflat, hflat.length_eq⟩

/-- Witness for C4 amended: one root with one reply on the block, one comment
on another block; creation time serves as the ranking. -/
theorem C4_thread_tree_witness :
    List.Perm (flatForest (MemStorage.getCommentsForBlock exC4Store "b1"))
      (commentsOnBlock exC4Store "b1") ∧
    sizeForest (MemStorage.getCommentsForBlock exC4Store "b1") =
      (commentsOnBlock exC4Store "b1").length :=
  C4_thread_tree exC4Store "b1" (fun c => c.createdAt) (by decide) (by decide)
